import Mathlib

/-!
# Verification of the `hspedro/articles` data-structure tutorials

Shallow embedding of the two components of the repository:

* `implementing-heap-in-python` — an array-backed binary min-heap
  (`minheap-2.py` … `minheap-6.py`): `add`/`heapify_up`, `poll`/`heapify_down`,
  `peek`/`is_empty`, `heapsort_aux`, `heapsort_in_place`/`heapify_children`.
* `implementing-linked-lists-in-python` — a sentinel-based singly linked list
  (`part6.py`): indexing operators, `find`, `contains`, `remove`.

Heap state is the backing list `nodes : List Int`; every method is a function
on that list.  The linked list is a sentinel payload (mutable, the source
stores the string HEAD there and `set(-1, d)` can overwrite it) together with
the list of data-node payloads.  Python exceptions that the source can raise
(`IndexError`, `AttributeError`) are modelled with `Except String`; the
`None` result of an operation is `Option.none`.

The recursive Python helpers `__heapify_down`, `heapify_children` and
`__heapify_up` are modelled with an explicit step counter (`fuel`), always
called with more fuel than the recursion can consume, so the embedded
functions compute by `rfl`/`decide`; all general lemmas below are proved for
every fuel value, or carry the arithmetic bound that the wrapper satisfies.
-/

namespace Articles

namespace MinHeap

/-- Modelled from the spec: the index helpers (`__get_left_child_index` and
friends) come from the first installment of the heap tutorial, which is not
present under `src/` (later files only say "Helper methods defined
previously").  Per the spec's data model, the children of index `i` live at
`2*i+1` and `2*i+2`. -/
def leftIdx (i : Nat) : Nat := 2 * i + 1

/-- Modelled from the spec: right child of `i` is at `2*i+2` (see `leftIdx`). -/
def rightIdx (i : Nat) : Nat := 2 * i + 2

/-- Modelled from the spec: parent of child `i` is at `(i-1)/2` (inverse of
the child maps; see `leftIdx`).  `Nat` truncation makes `parentIdx 0 = 0`,
which agrees with the source on every reachable call (the source only reads
the parent of index `0` on a one-element heap, where Python's `nodes[-1]` is
also the single cell `nodes[0]`). -/
def parentIdx (i : Nat) : Nat := (i - 1) / 2

/-- `self.nodes[i]` for an index that the algorithms keep in bounds. -/
def get0 (l : List Int) (i : Nat) : Int := l.getD i 0

/-- Modelled from the spec: `__has_left_child` (see `leftIdx`). -/
abbrev hasLeft (l : List Int) (i : Nat) : Prop := leftIdx i < l.length

/-- Modelled from the spec: `__has_right_child` (see `leftIdx`). -/
abbrev hasRight (l : List Int) (i : Nat) : Prop := rightIdx i < l.length

/-- `MinHeap.__swap` (`minheap-2.py`/`minheap-3.py`): bounds-checked swap,
degrading to a no-op (plus a diagnostic print) on an invalid index. -/
def swap (l : List Int) (i j : Nat) : List Int :=
  if l.length ≤ i ∨ l.length ≤ j then l
  else (l.set i (get0 l j)).set j (get0 l i)

/-- The `smaller_child_idx` local of `__heapify_down`: the left child, or
the right child when it exists and is strictly smaller. -/
def smallerChild (l : List Int) (index : Nat) : Nat :=
  if hasRight l index ∧ get0 l (rightIdx index) < get0 l (leftIdx index)
  then rightIdx index else leftIdx index

/-- `MinHeap.__heapify_down` (`minheap-3.py`, lines 28–45), step-indexed.
Recurses on the strictly larger smaller-child index, so any
`fuel ≥ l.length + 1` is enough (see `heapify_down`). -/
def heapify_down_go : Nat → List Int → Nat → List Int
  | 0, l, _ => l
  | fuel + 1, l, index =>
    if l.length ≤ index ∨ ¬ hasLeft l index then l
    else if get0 l index < get0 l (smallerChild l index) then l
    else if get0 l (smallerChild l index) < get0 l index then
      heapify_down_go fuel (swap l index (smallerChild l index)) (smallerChild l index)
    else l

/-- `MinHeap.__heapify_down` with the default-sufficient fuel. -/
def heapify_down (l : List Int) (index : Nat) : List Int :=
  heapify_down_go (l.length + 1) l index

/-- `MinHeap.is_empty` (`minheap-4.py`, lines 22–23): `not self.nodes`. -/
def is_empty (l : List Int) : Bool := l.isEmpty

/-- `MinHeap.peek` (`minheap-4.py`, lines 25–28), exactly as written:
`if not self.is_empty(): return None` and then `return self.nodes[0]`
(an `IndexError` on an empty backing list). -/
def peek (l : List Int) : Except String (Option Int) :=
  if ¬ is_empty l then Except.ok none
  else
    match l.head? with
    | none => Except.error "IndexError"
    | some x => Except.ok (some x)

/-- `MinHeap.poll` (`minheap-3.py`, lines 47–65): returns the polled value
(`none` on an empty heap) together with the resulting backing list. -/
def poll (l : List Int) : Option Int × List Int :=
  if is_empty l then (none, l)
  else
    let removed := get0 l 0
    let l1 := l.set 0 (get0 l (l.length - 1))
    let l2 := l1.dropLast
    (some removed, heapify_down l2 0)

/-- `MinHeap.__heapify_up` (`minheap-2.py`, lines 26–39), step-indexed.
The argument `child = 0` plays the role of Python's `None` default: the
source's `if not child` test treats `None` and `0` identically, resetting
`child` to the last index.  The guard keeps the source's truthiness test
`if self.__parent(child) and ...`: a parent holding the value `0` is treated
as absent. -/
def heapify_up_go : Nat → List Int → Nat → List Int
  | 0, l, _ => l
  | fuel + 1, l, child =>
    let c := if child = 0 then l.length - 1 else child
    let p := parentIdx c
    if get0 l p ≠ 0 ∧ get0 l c < get0 l p then
      heapify_up_go fuel (swap l c p) p
    else l

/-- `MinHeap.__heapify_up` with the default-sufficient fuel. -/
def heapify_up (l : List Int) : List Int := heapify_up_go (l.length + 1) l 0

/-- `MinHeap.add` (`minheap-2.py`, lines 41–43): append, then sift up. -/
def add (l : List Int) (x : Int) : List Int := heapify_up (l ++ [x])

/-- `MinHeap.__init__`: start from the empty backing list and `add` each
element of the argument in order. -/
def init (xs : List Int) : List Int := xs.foldl add []

/-- The polling loop of `heapsort_aux` (`minheap-5.py`): runs `poll` the
given number of times, returning the list of polled results and the final
backing list. -/
def heapsort_aux_go : Nat → List Int → List (Option Int) × List Int
  | 0, h => ([], h)
  | n + 1, h =>
    let r := poll h
    let rest := heapsort_aux_go n r.2
    (r.1 :: rest.1, rest.2)

/-- `heapsort_aux` (`minheap-5.py`, lines 24–31): build a heap from the input
by repeated `add`, then poll `len(input)` times into a fresh output sequence.
Returns the output sequence together with the final backing list of the heap
(the source's identity check compares exactly these two objects). -/
def heapsort_aux (xs : List Int) : List (Option Int) × List Int :=
  heapsort_aux_go xs.length (init xs)

/-- The conditional sibling swap at the start of `heapify_children`: put the
smaller of the two children of `index` on the left. -/
def childSwap (l : List Int) (index : Nat) : List Int :=
  if get0 l (rightIdx index) < get0 l (leftIdx index)
  then swap l (rightIdx index) (leftIdx index) else l

/-- `MinHeap.heapify_children` (`minheap-6.py`, lines 23–36), step-indexed:
swap the two children of `index` so that left ≤ right, then recurse into
both child positions.  Recursion descends to strictly larger indices bounded
by the length, so `fuel ≥ l.length + 1` is enough. -/
def heapify_children_go : Nat → List Int → Nat → List Int
  | 0, l, _ => l
  | fuel + 1, l, index =>
    if ¬ hasLeft l index then l
    else if ¬ hasRight l index then l
    else
      heapify_children_go fuel
        (heapify_children_go fuel (childSwap l index) (leftIdx index))
        (rightIdx index)

/-- `MinHeap.heapify_children` with the default-sufficient fuel. -/
def heapify_children (l : List Int) (index : Nat) : List Int :=
  heapify_children_go (l.length + 1) l index

/-- The build pass of `heapsort_in_place` (`minheap-6.py`, lines 45–46):
`for idx in range(size // 2, -1, -1): heap.heapify_down(idx)` — the loop
body for `idx = k, k-1, ..., 0`. -/
def buildLoop (l : List Int) : Nat → List Int
  | 0 => heapify_down l 0
  | k + 1 => buildLoop (heapify_down l (k + 1)) k

/-- `heapsort_in_place` (`minheap-6.py`, lines 39–48): bottom-up heapify
from `len // 2` down to `0`, then `heapify_children(0)`. -/
def heapsort_in_place (l : List Int) : List Int :=
  heapify_children (buildLoop l (l.length / 2)) 0

/-- The pair of heap inequalities rooted at `i`, each guarded by the
existence of the corresponding child. -/
def pairsOK (l : List Int) (i : Nat) : Prop :=
  (leftIdx i < l.length → get0 l i ≤ get0 l (leftIdx i)) ∧
  (rightIdx i < l.length → get0 l i ≤ get0 l (rightIdx i))

instance (l : List Int) (i : Nat) : Decidable (pairsOK l i) := by
  unfold pairsOK; infer_instance

/-- The heap invariant restricted to indices `≥ k` (all subtrees rooted at
an index `≥ k` are min-heaps: the index set `≥ k` is closed under children). -/
def heapFrom (l : List Int) (k : Nat) : Prop :=
  ∀ i, k ≤ i → i < l.length → pairsOK l i

/-- The spec's min-heap invariant (§3): every parent is `≤` its children. -/
def isMinHeap (l : List Int) : Prop := heapFrom l 0

instance (l : List Int) (k : Nat) : Decidable (heapFrom l k) :=
  decidable_of_iff (∀ i, i < l.length → k ≤ i → pairsOK l i)
    ⟨fun h i hk hi => h i hi hk, fun h i hi hk => h i hk hi⟩

instance (l : List Int) : Decidable (isMinHeap l) :=
  inferInstanceAs (Decidable (heapFrom l 0))

end MinHeap

/-! ## Singly linked list (`implementing-linked-lists-in-python/part6.py`) -/

/-- A Python payload as used by the list: the data nodes of the examples hold
integers, while the sentinel holds the string HEAD; `Any`-typed equality
comparisons are equality of these values. -/
inductive PyVal where
  | int : Int → PyVal
  | str : String → PyVal
deriving DecidableEq, Repr

/-- A `SinglyLinkedList` is determined by the payload of its sentinel node
(`self.HEAD.data`, initially the string HEAD but overwritable through
`__setitem__`) and the payloads of the data nodes hanging off the sentinel. -/
structure SinglyLinkedList where
  headData : PyVal
  items : List PyVal
deriving DecidableEq, Repr

namespace SinglyLinkedList

/-- The payloads seen by `__iter__`: the sentinel first, then the data
nodes, ending at the absence marker. -/
def chain (s : SinglyLinkedList) : List PyVal := s.headData :: s.items

/-- `__len__`: one less than the number of nodes the iterator yields. -/
def length (s : SinglyLinkedList) : Nat := s.chain.length - 1

/-- `__contains__` (`part6.py`, lines 34–38): scans every node the iterator
yields — the sentinel included — for an equal payload. -/
def contains (s : SinglyLinkedList) (data : PyVal) : Bool :=
  s.chain.any (fun d => decide (d = data))

/-- `find` (`part6.py`, lines 142–148): the empty signal on an empty list,
otherwise the first node of the iteration — the sentinel included — whose
payload equals `data` (`none` if the loop falls through). -/
def find (s : SinglyLinkedList) (data : PyVal) : Option PyVal :=
  if s.items = [] then none
  else s.chain.find? (fun d => decide (d = data))

/-- The traversal of `__getitem__` (`part6.py`, lines 48–55) after the
(unsatisfiable) bounds check: `steps` remaining iterations of
`node = node.next`, where the list is the part of the chain from the current
node on (so `[]` is Python's `None`); then `return node.next`.  Reading an
attribute of `None` raises `AttributeError`. -/
def getGo : List PyVal → Nat → Except String (Option PyVal)
  | [], _ => Except.error "AttributeError"
  | _ :: rest, 0 => Except.ok rest.head?
  | _ :: rest, steps + 1 => getGo rest steps

/-- `__getitem__` (`part6.py`, lines 48–55).  The source's guard
`if index < 0 and index > len(self) - 1` can never fire; a negative `index`
makes `range(index)` empty, so the traversal stays at the sentinel. -/
def getAt (s : SinglyLinkedList) (index : Int) : Except String (Option PyVal) :=
  if index < 0 ∧ (s.length : Int) - 1 < index then Except.error "Index out of range"
  else getGo s.chain index.toNat

/-- The traversal of `__setitem__` over the data nodes: after leaving the
sentinel, walk `steps` further and overwrite the payload of the node
reached (`AttributeError` if the walk reaches or crosses `None`). -/
def setGo : List PyVal → Nat → PyVal → Except String (List PyVal)
  | [], _, _ => Except.error "AttributeError"
  | _ :: rest, 0, data => Except.ok (data :: rest)
  | d :: rest, steps + 1, data => (setGo rest steps data).map (fun r => d :: r)

/-- `__setitem__` (`part6.py`, lines 57–65): walks `index + 1` steps from the
sentinel and overwrites the payload there.  For `index ≤ -1` the walk length
truncates to `0`, so the sentinel's own payload is overwritten. -/
def setAt (s : SinglyLinkedList) (index : Int) (data : PyVal) :
    Except String SinglyLinkedList :=
  if index < 0 ∧ (s.length : Int) - 1 < index then Except.error "Index out of range"
  else
    match (index + 1).toNat with
    | 0 => Except.ok ⟨data, s.items⟩
    | steps + 1 => (setGo s.items steps data).map (fun its => ⟨s.headData, its⟩)

/-- The traversal of `__delitem__` over the data nodes: after leaving the
sentinel, walk `steps` further, then splice out the successor of the node
reached (`node.next = node.next.next if node.next else None`, a no-op at the
last node; `AttributeError` if the walk reaches or crosses `None`). -/
def delGo : List PyVal → Nat → Except String (List PyVal)
  | [], _ => Except.error "AttributeError"
  | d :: rest, 0 => Except.ok (d :: rest.tail)
  | d :: rest, steps + 1 => (delGo rest steps).map (fun r => d :: r)

/-- `__delitem__` (`part6.py`, lines 67–75): walks `index` steps from the
sentinel and unlinks the following node.  For `index ≤ 0` (truncated walk)
the node after the sentinel — the first data node — is unlinked. -/
def delAt (s : SinglyLinkedList) (index : Int) : Except String SinglyLinkedList :=
  if index < 0 ∧ (s.length : Int) - 1 < index then Except.error "Index out of range"
  else
    match index.toNat with
    | 0 => Except.ok ⟨s.headData, s.items.tail⟩
    | steps + 1 => (delGo s.items steps).map (fun its => ⟨s.headData, its⟩)

/-- The scan of `remove` over the data nodes after the current one: the loop
tests `node.next.data == data` and unlinks on a match; reaching the last
node (`node.next` is `None`) dereferences `None.data`. -/
def removeGo (data : PyVal) : List PyVal → Except String (List PyVal)
  | [] => Except.error "AttributeError"
  | x :: xs =>
    if x = data then Except.ok xs
    else (removeGo data xs).map (fun r => x :: r)

/-- `remove` (`part6.py`, lines 150–157): the empty signal (`none`) on an
empty list, otherwise unlink the first data node whose payload equals
`data` and return the list. -/
def remove (s : SinglyLinkedList) (data : PyVal) :
    Except String (Option SinglyLinkedList) :=
  if s.items = [] then Except.ok none
  else (removeGo data s.items).map (fun its => some ⟨s.headData, its⟩)

end SinglyLinkedList

/-! ## Lemmas about the heap embedding -/

namespace MinHeap

theorem get0_set_self {l : List Int} {i : Nat} (hi : i < l.length) (a : Int) :
    get0 (l.set i a) i = a := by
  simp [get0, List.getD_eq_getElem?_getD, List.getElem?_set_self hi]

theorem get0_set_ne {i j : Nat} (h : i ≠ j) (l : List Int) (a : Int) :
    get0 (l.set i a) j = get0 l j := by
  simp [get0, List.getD_eq_getElem?_getD, List.getElem?_set_ne h]

theorem swap_length (l : List Int) (i j : Nat) : (swap l i j).length = l.length := by
  unfold swap; split <;> simp

theorem get0_swap_fst {l : List Int} {i j : Nat} (hi : i < l.length) (hj : j < l.length) :
    get0 (swap l i j) i = get0 l j := by
  unfold swap
  rw [if_neg (by omega)]
  rcases eq_or_ne j i with rfl | hne
  · exact get0_set_self (by simpa using hi) _
  · rw [get0_set_ne hne, get0_set_self hi]

theorem get0_swap_snd {l : List Int} {i j : Nat} (hi : i < l.length) (hj : j < l.length) :
    get0 (swap l i j) j = get0 l i := by
  unfold swap
  rw [if_neg (by omega)]
  exact get0_set_self (by simpa using hj) _

theorem get0_swap_other (l : List Int) (i j : Nat) {m : Nat}
    (hmi : m ≠ i) (hmj : m ≠ j) : get0 (swap l i j) m = get0 l m := by
  unfold swap
  split
  · rfl
  · rw [get0_set_ne (Ne.symm hmj), get0_set_ne (Ne.symm hmi)]

theorem cons_set_perm : ∀ (l : List Int) (m : Nat) (a : Int), m < l.length →
    ((l.getD m 0 :: l.set m a).Perm (a :: l))
  | y :: ys, 0, a, _ => by simpa using List.Perm.swap a y ys
  | y :: ys, m + 1, a, h => by
    simp only [List.getD_cons_succ, List.set_cons_succ]
    exact ((List.Perm.swap y (ys.getD m 0) (ys.set m a)).trans
      ((cons_set_perm ys m a (by simpa using h)).cons y)).trans
      (List.Perm.swap a y ys)

theorem set_set_perm : ∀ (l : List Int) (i j : Nat), i < l.length → j < l.length →
    (((l.set i (get0 l j)).set j (get0 l i)).Perm l)
  | x :: xs, 0, 0, _, _ => by simp [get0]
  | x :: xs, 0, j + 1, _, hj => by
    simpa [get0] using cons_set_perm xs j x (by simpa using hj)
  | x :: xs, i + 1, 0, hi, _ => by
    simpa [get0] using cons_set_perm xs i x (by simpa using hi)
  | x :: xs, i + 1, j + 1, hi, hj => by
    simpa [get0] using
      (set_set_perm xs i j (by simpa using hi) (by simpa using hj)).cons x

theorem swap_perm (l : List Int) (i j : Nat) : (swap l i j).Perm l := by
  unfold swap
  split
  · exact List.Perm.refl l
  · rename_i h
    push_neg at h
    exact set_set_perm l i j (by omega) (by omega)

theorem smallerChild_gt (l : List Int) (index : Nat) :
    index < smallerChild l index := by
  unfold smallerChild
  split <;> simp [leftIdx, rightIdx] <;> omega

theorem smallerChild_ge_left (l : List Int) (index : Nat) :
    leftIdx index ≤ smallerChild l index := by
  unfold smallerChild
  split <;> simp [leftIdx, rightIdx]

theorem smallerChild_le_rIdx (l : List Int) (index : Nat) :
    smallerChild l index ≤ rightIdx index := by
  unfold smallerChild
  split <;> simp [leftIdx, rightIdx]

theorem smallerChild_lt_length {l : List Int} {index : Nat}
    (h : hasLeft l index) : smallerChild l index < l.length := by
  unfold smallerChild
  split
  · rename_i hr; exact hr.1
  · exact h

theorem smallerChild_le_left {l : List Int} (index : Nat) :
    get0 l (smallerChild l index) ≤ get0 l (leftIdx index) := by
  unfold smallerChild
  split
  · rename_i hr; exact hr.2.le
  · exact le_refl _

theorem smallerChild_le_right {l : List Int} {index : Nat}
    (hr : hasRight l index) : get0 l (smallerChild l index) ≤ get0 l (rightIdx index) := by
  unfold smallerChild
  split
  · exact le_refl _
  · rename_i hcond
    rw [not_and, not_lt] at hcond
    exact hcond hr

theorem smallerChild_cases (l : List Int) (index : Nat) :
    smallerChild l index = leftIdx index ∨
      (hasRight l index ∧ smallerChild l index = rightIdx index) := by
  unfold smallerChild
  split
  · rename_i hr; exact Or.inr ⟨hr.1, rfl⟩
  · exact Or.inl rfl

theorem heapify_down_go_length : ∀ (fuel : Nat) (l : List Int) (index : Nat),
    (heapify_down_go fuel l index).length = l.length
  | 0, _, _ => rfl
  | fuel + 1, l, index => by
    rw [heapify_down_go]
    split
    · rfl
    · split
      · rfl
      · split
        · rw [heapify_down_go_length fuel, swap_length]
        · rfl

theorem heapify_down_go_perm : ∀ (fuel : Nat) (l : List Int) (index : Nat),
    (heapify_down_go fuel l index).Perm l
  | 0, l, _ => List.Perm.refl l
  | fuel + 1, l, index => by
    rw [heapify_down_go]
    split
    · exact List.Perm.refl l
    · split
      · exact List.Perm.refl l
      · split
        · exact (heapify_down_go_perm fuel _ _).trans (swap_perm l _ _)
        · exact List.Perm.refl l

/-- `__heapify_down` started at `index` only writes to `index` itself and to
positions from the left child of `index` onwards. -/
theorem heapify_down_go_fix : ∀ (fuel : Nat) (l : List Int) (index : Nat) {m : Nat},
    m ≠ index → m < leftIdx index → get0 (heapify_down_go fuel l index) m = get0 l m
  | 0, _, _, _, _, _ => rfl
  | fuel + 1, l, index, m, hm1, hm2 => by
    rw [heapify_down_go]
    split
    · rfl
    · split
      · rfl
      · split
        · have hsc := smallerChild_gt l index
          have hsc2 := smallerChild_ge_left l index
          rw [heapify_down_go_fix fuel _ (smallerChild l index)
              (by omega) (by simp only [leftIdx] at hm2 hsc2 ⊢; omega),
            get0_swap_other _ _ _ hm1 (by omega)]
        · rfl

/-- The value `__heapify_down` leaves at its start index is the old value
there or the old value of one of the two children. -/
theorem heapify_down_go_root : ∀ (fuel : Nat) (l : List Int) (index : Nat),
    get0 (heapify_down_go fuel l index) index = get0 l index ∨
      (leftIdx index < l.length ∧
        get0 (heapify_down_go fuel l index) index = get0 l (leftIdx index)) ∨
      (rightIdx index < l.length ∧
        get0 (heapify_down_go fuel l index) index = get0 l (rightIdx index))
  | 0, _, _ => Or.inl rfl
  | fuel + 1, l, index => by
    rw [heapify_down_go]
    split
    · exact Or.inl rfl
    · rename_i hguard
      push_neg at hguard
      have hleft : leftIdx index < l.length := hguard.2
      split
      · exact Or.inl rfl
      · split
        · have hsc := smallerChild_gt l index
          have hscl : smallerChild l index < l.length := smallerChild_lt_length hleft
          have hfix : get0 (heapify_down_go fuel (swap l index (smallerChild l index))
              (smallerChild l index)) index
              = get0 (swap l index (smallerChild l index)) index :=
            heapify_down_go_fix fuel _ _ (by omega) (by simp only [leftIdx]; omega)
          have hval : get0 (swap l index (smallerChild l index)) index
              = get0 l (smallerChild l index) :=
            get0_swap_fst (by omega) hscl
          rcases smallerChild_cases l index with hc | ⟨hr, hc⟩
          · exact Or.inr (Or.inl ⟨hleft, by rw [hfix, hval, hc]⟩)
          · exact Or.inr (Or.inr ⟨hr, by rw [hfix, hval, hc]⟩)
        · exact Or.inl rfl

/-- Sift-down correctness, the heart of Floyd's bottom-up construction: if
the heap inequalities hold at every index strictly greater than `index`,
then after `__heapify_down index` they hold at every index `≥ index`.
The arithmetic side condition is what the `heapify_down` wrapper's default
fuel always satisfies. -/
theorem heapify_down_go_heapFrom : ∀ (fuel : Nat) (l : List Int) (index : Nat),
    l.length ≤ index + fuel → heapFrom l (index + 1) →
    heapFrom (heapify_down_go fuel l index) index
  | 0, l, index, hfuel, _ => by
    intro i hi hil
    simp only [heapify_down_go] at hil ⊢
    exact absurd hil (by omega)
  | fuel + 1, l, index, hfuel, hF => by
    rw [heapify_down_go]
    split
    · rename_i hguard
      intro i hi hil
      rcases Nat.lt_or_ge index i with hlt | hge
      · exact hF i hlt hil
      · have hieq : index = i := by omega
        subst hieq
        refine ⟨fun hl => ?_, fun hr => ?_⟩
        · rcases hguard with hg | hg
          · omega
          · exact absurd hl hg
        · rcases hguard with hg | hg
          · omega
          · simp only [hasLeft, leftIdx, rightIdx] at hg hr
            omega
    · rename_i hguard
      push_neg at hguard
      obtain ⟨hidx, hleft⟩ := hguard
      have hscl : smallerChild l index < l.length := smallerChild_lt_length hleft
      have hscgt := smallerChild_gt l index
      have hscgl := smallerChild_ge_left l index
      have hsclr := smallerChild_le_rIdx l index
      split
      · rename_i hlt
        intro i hi hil
        rcases Nat.lt_or_ge index i with hgt | hge
        · exact hF i hgt hil
        · have hieq : index = i := by omega
          subst hieq
          exact ⟨fun _ => (hlt.trans_le (smallerChild_le_left index)).le,
                 fun hr => (hlt.trans_le (smallerChild_le_right hr)).le⟩
      · split
        · rename_i hnlt hgt
          have hlen2 : (swap l index (smallerChild l index)).length = l.length :=
            swap_length l index (smallerChild l index)
          have hfuel2 : (swap l index (smallerChild l index)).length ≤
              smallerChild l index + fuel := by omega
          have hF2 : heapFrom (swap l index (smallerChild l index))
              (smallerChild l index + 1) := by
            intro i hi hil
            rw [hlen2] at hil
            have h1 : get0 (swap l index (smallerChild l index)) i = get0 l i :=
              get0_swap_other _ _ _ (by omega) (by omega)
            have h2 : get0 (swap l index (smallerChild l index)) (leftIdx i)
                = get0 l (leftIdx i) :=
              get0_swap_other _ _ _ (by simp only [leftIdx]; omega)
                (by simp only [leftIdx]; omega)
            have h3 : get0 (swap l index (smallerChild l index)) (rightIdx i)
                = get0 l (rightIdx i) :=
              get0_swap_other _ _ _ (by simp only [rightIdx]; omega)
                (by simp only [rightIdx]; omega)
            obtain ⟨pl, pr⟩ := hF i (by omega) hil
            refine ⟨fun hl => ?_, fun hr => ?_⟩
            · rw [hlen2] at hl
              rw [h1, h2]
              exact pl hl
            · rw [hlen2] at hr
              rw [h1, h3]
              exact pr hr
          have hrec := heapify_down_go_heapFrom fuel _ _ hfuel2 hF2
          intro i hi hil
          have hlenR : (heapify_down_go fuel (swap l index (smallerChild l index))
              (smallerChild l index)).length = l.length := by
            rw [heapify_down_go_length, hlen2]
          rw [hlenR] at hil
          rcases Nat.lt_or_ge i (smallerChild l index) with hisc | hisc
          · rcases Nat.lt_or_ge index i with hii | hii
            · have g1 : get0 (heapify_down_go fuel (swap l index (smallerChild l index))
                  (smallerChild l index)) i = get0 l i := by
                rw [heapify_down_go_fix fuel _ _ (by omega) (by simp only [leftIdx]; omega),
                  get0_swap_other _ _ _ (by omega) (by omega)]
              have g2 : get0 (heapify_down_go fuel (swap l index (smallerChild l index))
                  (smallerChild l index)) (leftIdx i) = get0 l (leftIdx i) := by
                rw [heapify_down_go_fix fuel _ _
                    (by simp only [leftIdx, rightIdx] at hsclr ⊢; omega)
                    (by simp only [leftIdx]; omega),
                  get0_swap_other _ _ _ (by simp only [leftIdx]; omega)
                    (by simp only [leftIdx, rightIdx] at hsclr ⊢; omega)]
              have g3 : get0 (heapify_down_go fuel (swap l index (smallerChild l index))
                  (smallerChild l index)) (rightIdx i) = get0 l (rightIdx i) := by
                rw [heapify_down_go_fix fuel _ _
                    (by simp only [leftIdx, rightIdx] at hsclr ⊢; omega)
                    (by simp only [leftIdx, rightIdx]; omega),
                  get0_swap_other _ _ _ (by simp only [rightIdx]; omega)
                    (by simp only [leftIdx, rightIdx] at hsclr ⊢; omega)]
              obtain ⟨pl, pr⟩ := hF i (by omega) (by omega)
              refine ⟨fun hl => ?_, fun hr => ?_⟩
              · rw [hlenR] at hl
                rw [g1, g2]
                exact pl hl
              · rw [hlenR] at hr
                rw [g1, g3]
                exact pr hr
            · have hieq : index = i := by omega
              subst hieq
              have gr : get0 (heapify_down_go fuel (swap l index (smallerChild l index))
                  (smallerChild l index)) index = get0 l (smallerChild l index) := by
                rw [heapify_down_go_fix fuel _ _ (by omega) (by simp only [leftIdx]; omega),
                  get0_swap_fst (by omega) hscl]
              have hsc_ge : get0 l (smallerChild l index) ≤
                  get0 (heapify_down_go fuel (swap l index (smallerChild l index))
                    (smallerChild l index)) (smallerChild l index) := by
                rcases heapify_down_go_root fuel (swap l index (smallerChild l index))
                    (smallerChild l index) with h | ⟨hb, h⟩ | ⟨hb, h⟩
                · rw [h, get0_swap_snd (by omega) hscl]
                  exact hgt.le
                · rw [hlen2] at hb
                  rw [h, get0_swap_other _ _ _ (by simp only [leftIdx]; omega)
                    (by simp only [leftIdx]; omega)]
                  exact (hF (smallerChild l index) (by omega) hscl).1 hb
                · rw [hlen2] at hb
                  rw [h, get0_swap_other _ _ _ (by simp only [rightIdx]; omega)
                    (by simp only [rightIdx]; omega)]
                  exact (hF (smallerChild l index) (by omega) hscl).2 hb
              refine ⟨fun hl => ?_, fun hr => ?_⟩
              · rcases eq_or_ne (leftIdx index) (smallerChild l index) with hceq | hcne
                · rw [gr, hceq]
                  exact hsc_ge
                · have hfixc : get0 (heapify_down_go fuel
                      (swap l index (smallerChild l index)) (smallerChild l index))
                      (leftIdx index) = get0 l (leftIdx index) := by
                    rw [heapify_down_go_fix fuel _ _ hcne
                        (by simp only [leftIdx]; omega),
                      get0_swap_other _ _ _ (by simp only [leftIdx]; omega) hcne]
                  rw [gr, hfixc]
                  exact smallerChild_le_left index
              · rw [hlenR] at hr
                rcases eq_or_ne (rightIdx index) (smallerChild l index) with hceq | hcne
                · rw [gr, hceq]
                  exact hsc_ge
                · have hfixc : get0 (heapify_down_go fuel
                      (swap l index (smallerChild l index)) (smallerChild l index))
                      (rightIdx index) = get0 l (rightIdx index) := by
                    rw [heapify_down_go_fix fuel _ _ hcne
                        (by simp only [leftIdx, rightIdx]; omega),
                      get0_swap_other _ _ _ (by simp only [rightIdx]; omega) hcne]
                  rw [gr, hfixc]
                  exact smallerChild_le_right hr
          · exact hrec i hisc (by rw [hlenR]; exact hil)
        · rename_i hnlt hngt
          have heqv : get0 l index = get0 l (smallerChild l index) :=
            le_antisymm (not_lt.mp hngt) (not_lt.mp hnlt)
          intro i hi hil
          rcases Nat.lt_or_ge index i with hgt | hge
          · exact hF i hgt hil
          · have hieq : index = i := by omega
            subst hieq
            exact ⟨fun _ => heqv.le.trans (smallerChild_le_left index),
                   fun hr => heqv.le.trans (smallerChild_le_right hr)⟩

theorem heapify_down_length (l : List Int) (index : Nat) :
    (heapify_down l index).length = l.length :=
  heapify_down_go_length _ l index

theorem heapify_down_perm (l : List Int) (index : Nat) :
    (heapify_down l index).Perm l :=
  heapify_down_go_perm _ l index

theorem heapify_down_heapFrom {l : List Int} (index : Nat)
    (h : heapFrom l (index + 1)) : heapFrom (heapify_down l index) index :=
  heapify_down_go_heapFrom (l.length + 1) l index (by omega) h

theorem buildLoop_length (l : List Int) : ∀ (k : Nat),
    (buildLoop l k).length = l.length
  | 0 => heapify_down_length l 0
  | k + 1 => by rw [buildLoop, buildLoop_length _ k, heapify_down_length]

theorem buildLoop_perm (l : List Int) : ∀ (k : Nat), (buildLoop l k).Perm l
  | 0 => heapify_down_perm l 0
  | k + 1 => (buildLoop_perm _ k).trans (heapify_down_perm l (k + 1))

theorem buildLoop_heapFrom : ∀ (k : Nat) (l : List Int),
    heapFrom l (k + 1) → heapFrom (buildLoop l k) 0
  | 0, _, h => heapify_down_heapFrom 0 h
  | k + 1, _, h => buildLoop_heapFrom k _ (heapify_down_heapFrom (k + 1) h)

/-- Above the midpoint every subtree is a single node, so the heap
inequalities hold vacuously — the starting point of the bottom-up pass. -/
theorem heapFrom_half (l : List Int) : heapFrom l (l.length / 2 + 1) := by
  intro i hi hil
  constructor
  · intro hc
    simp only [leftIdx] at hc
    omega
  · intro hc
    simp only [rightIdx] at hc
    omega

/-- The bottom-up pass of `heapsort_in_place` really does produce a valid
min-heap arrangement. -/
theorem buildLoop_isMinHeap (l : List Int) :
    isMinHeap (buildLoop l (l.length / 2)) :=
  buildLoop_heapFrom (l.length / 2) l (heapFrom_half l)

/-- In a valid min-heap the root is a lower bound of every cell. -/
theorem root_min {l : List Int} (h : isMinHeap l) :
    ∀ i, i < l.length → get0 l 0 ≤ get0 l i := by
  intro i
  induction i using Nat.strong_induction_on with
  | _ i ih =>
    intro hil
    match i with
    | 0 => exact le_refl _
    | Nat.succ m =>
      have hsplit : leftIdx (m / 2) = m + 1 ∨ rightIdx (m / 2) = m + 1 := by
        simp only [leftIdx, rightIdx]
        omega
      have hp : m / 2 < m + 1 := by omega
      have hpair := h (m / 2) (Nat.zero_le _) (by omega)
      have hstep : get0 l (m / 2) ≤ get0 l (m + 1) := by
        rcases hsplit with hc | hc
        · exact hpair.1 (by rw [hc]; exact hil) |>.trans_eq (by rw [hc])
        · exact hpair.2 (by rw [hc]; exact hil) |>.trans_eq (by rw [hc])
      exact (ih (m / 2) hp (by omega)).trans hstep

/-- In a valid min-heap the root is `≤` every member. -/
theorem root_min_mem {l : List Int} (h : isMinHeap l) :
    ∀ x ∈ l, get0 l 0 ≤ x := by
  intro x hx
  obtain ⟨i, hi, rfl⟩ := List.mem_iff_getElem.mp hx
  calc get0 l 0 ≤ get0 l i := root_min h i hi
  _ = l[i] := List.getD_eq_getElem l 0 hi

theorem childSwap_perm (l : List Int) (index : Nat) : (childSwap l index).Perm l := by
  unfold childSwap
  split
  · exact swap_perm l _ _
  · exact List.Perm.refl l

theorem get0_childSwap_low (l : List Int) (index : Nat) {m : Nat} (hm : m ≤ index) :
    get0 (childSwap l index) m = get0 l m := by
  unfold childSwap
  split
  · exact get0_swap_other _ _ _ (by simp only [rightIdx]; omega)
      (by simp only [leftIdx]; omega)
  · rfl

theorem heapify_children_go_perm : ∀ (fuel : Nat) (l : List Int) (index : Nat),
    (heapify_children_go fuel l index).Perm l
  | 0, l, _ => List.Perm.refl l
  | fuel + 1, l, index => by
    rw [heapify_children_go]
    split
    · exact List.Perm.refl l
    · split
      · exact List.Perm.refl l
      · exact ((heapify_children_go_perm fuel _ _).trans
          (heapify_children_go_perm fuel _ _)).trans (childSwap_perm l index)

/-- `heapify_children` started at `index` never writes at or below `index`;
in particular `heapify_children 0` never moves the root. -/
theorem heapify_children_go_fix : ∀ (fuel : Nat) (l : List Int) (index : Nat) {m : Nat},
    m ≤ index → get0 (heapify_children_go fuel l index) m = get0 l m
  | 0, _, _, _, _ => rfl
  | fuel + 1, l, index, m, hm => by
    rw [heapify_children_go]
    split
    · rfl
    · split
      · rfl
      · rw [heapify_children_go_fix fuel _ (rightIdx index)
            (by simp only [rightIdx]; omega),
          heapify_children_go_fix fuel _ (leftIdx index)
            (by simp only [leftIdx]; omega),
          get0_childSwap_low l index hm]

theorem heapify_children_perm (l : List Int) (index : Nat) :
    (heapify_children l index).Perm l :=
  heapify_children_go_perm _ l index

theorem get0_heapify_children_root (l : List Int) :
    get0 (heapify_children l 0) 0 = get0 l 0 :=
  heapify_children_go_fix _ l 0 (le_refl 0)

theorem get0_last {l : List Int} (h : l ≠ []) :
    get0 l (l.length - 1) = l.getLast h := by
  rw [get0, List.getD_eq_getElem l 0 (by have := List.length_pos_of_ne_nil h; omega),
    List.getLast_eq_getElem]

/-- `poll` on a non-empty heap: unfolding of the definition. -/
theorem poll_of_ne_nil {l : List Int} (h : l ≠ []) :
    poll l = (some (get0 l 0),
      heapify_down ((l.set 0 (get0 l (l.length - 1))).dropLast) 0) := by
  rw [poll, if_neg]
  simp [is_empty, List.isEmpty_iff, h]

/-- Moving the last cell to the root and dropping the last cell is, up to
permutation, just removing the root. -/
theorem set_dropLast_perm_tail : ∀ {l : List Int}, l ≠ [] →
    ((l.set 0 (get0 l (l.length - 1))).dropLast).Perm l.tail
  | [], h => absurd rfl h
  | [x], _ => by simp [get0]
  | x :: y :: ys, _ => by
    have hne : (y :: ys : List Int) ≠ [] := List.cons_ne_nil y ys
    have h1 : (x :: y :: ys).length - 1 = (y :: ys).length - 1 + 1 := by
      simp only [List.length_cons]
      omega
    have hlast : get0 (x :: y :: ys) ((x :: y :: ys).length - 1)
        = (y :: ys).getLast hne := by
      rw [h1, get0, List.getD_cons_succ, ← get0, get0_last hne]
    rw [hlast, List.set_cons_zero, List.dropLast_cons₂, List.tail_cons]
    have hperm : ((y :: ys).getLast hne :: (y :: ys).dropLast).Perm
        ((y :: ys).dropLast ++ [(y :: ys).getLast hne]) :=
      (List.perm_append_singleton _ _).symm
    rw [List.dropLast_append_getLast hne] at hperm
    exact hperm

/-- `poll` on a valid non-empty heap returns the minimum and leaves a valid
heap over the remaining multiset. -/
theorem poll_result_perm_tail {l : List Int} (h : l ≠ []) :
    ((poll l).2).Perm l.tail := by
  rw [poll_of_ne_nil h]
  exact (heapify_down_perm _ 0).trans (set_dropLast_perm_tail h)

theorem poll_heapFrom {l : List Int} (hne : l ≠ []) (h : isMinHeap l) :
    isMinHeap (poll l).2 := by
  rw [poll_of_ne_nil hne]
  generalize get0 l (l.length - 1) = a
  refine heapify_down_heapFrom 0 ?_
  intro i hi hil
  have hlen : ((l.set 0 a).dropLast).length = l.length - 1 := by
    rw [List.length_dropLast, List.length_set]
  rw [hlen] at hil
  have hkey : ∀ j, j ≠ 0 → j < l.length - 1 →
      get0 ((l.set 0 a).dropLast) j = get0 l j := by
    intro j hj0 hjl
    simp only [get0]
    rw [List.getD_eq_getElem ((l.set 0 a).dropLast) 0 (by rw [hlen]; omega),
      List.getD_eq_getElem l 0 (by omega), List.getElem_dropLast,
      List.getElem_set_ne (Ne.symm hj0)]
  obtain ⟨pl, pr⟩ := h i (Nat.zero_le i) (by omega)
  refine ⟨fun hc => ?_, fun hc => ?_⟩
  · rw [hlen] at hc
    rw [hkey i (by omega) hil, hkey (leftIdx i) (by simp [leftIdx]) hc]
    exact pl (by omega)
  · rw [hlen] at hc
    rw [hkey i (by omega) hil, hkey (rightIdx i) (by simp [rightIdx]) hc]
    exact pr (by omega)

end MinHeap

/-! ## Lemmas about the linked-list embedding -/

namespace SinglyLinkedList

/-- When the payload occurs, the `remove` scan unlinks exactly the first
occurrence. -/
theorem removeGo_mem (data : PyVal) : ∀ (l : List PyVal), data ∈ l →
    ∃ pre post, l = pre ++ data :: post ∧ data ∉ pre ∧
      removeGo data l = Except.ok (pre ++ post)
  | [], h => absurd h (List.not_mem_nil data)
  | x :: xs, h => by
    rcases eq_or_ne x data with rfl | hne
    · exact ⟨[], xs, rfl, List.not_mem_nil x, by rw [removeGo, if_pos rfl]; rfl⟩
    · have hmem : data ∈ xs := by
        rcases List.mem_cons.mp h with h | h
        · exact absurd h.symm hne
        · exact h
      obtain ⟨pre, post, heq, hpre, hgo⟩ := removeGo_mem data xs hmem
      refine ⟨x :: pre, post, by rw [List.cons_append, heq], ?_, ?_⟩
      · intro hc
        rcases List.mem_cons.mp hc with h | h
        · exact hne h.symm
        · exact hpre h
      · rw [removeGo, if_neg hne, hgo]
        rfl

/-- When the payload is absent, the `remove` scan walks off the end of the
chain and dereferences the absence marker. -/
theorem removeGo_not_mem (data : PyVal) : ∀ (l : List PyVal), data ∉ l →
    removeGo data l = Except.error "AttributeError"
  | [], _ => rfl
  | x :: xs, h => by
    have hne : x ≠ data := fun hc => h (hc ▸ List.mem_cons_self x xs)
    have hxs : data ∉ xs := fun hc => h (List.mem_cons_of_mem x hc)
    rw [removeGo, if_neg hne, removeGo_not_mem data xs hxs]
    rfl

end SinglyLinkedList

/-! ## The claims -/

namespace MinHeap

/-- C1 (counterexample): on the valid min-heap `[0, 5, 1, 6, 7, 1, 1]` the
build pass is a no-op, and the subsequent `heapify_children(0)` swaps the
`5` and the `1` under the root, leaving `5` at index 2 above its child `1`
at index 5 — so the sequence `heapsort_in_place` returns is *not* a valid
min-heap arrangement, contrary to the claim. -/
theorem heapsort_in_place_not_minheap :
    heapsort_in_place [0, 5, 1, 6, 7, 1, 1] = [0, 1, 5, 6, 7, 1, 1] ∧
    ¬ isMinHeap [0, 1, 5, 6, 7, 1, 1] :=
  ⟨by decide, by decide⟩

/-- C1 (amended): for every integer sequence `S`, `heapsort_in_place S`
first restores the heap invariant bottom-up by running the down-heapify
step on every index from `len S / 2` down to `0` inclusive — at which point
the sequence is a valid min-heap arrangement (a permutation) of `S` — and
then calls `heapify_children 0`; the returned sequence is that final result,
a permutation of `S`, but need not itself satisfy the min-heap invariant. -/
theorem heapsort_in_place_amended (S : List Int) :
    heapsort_in_place S = heapify_children (buildLoop S (S.length / 2)) 0 ∧
    isMinHeap (buildLoop S (S.length / 2)) ∧
    (buildLoop S (S.length / 2)).Perm S ∧
    (heapsort_in_place S).Perm S :=
  ⟨rfl, buildLoop_isMinHeap S, buildLoop_perm S _,
    (heapify_children_perm _ 0).trans (buildLoop_perm S _)⟩

/-- C2: the claim says `add` always restores the min-heap invariant, but the
source's sift-up guard `if self.__parent(child) and ...` treats a parent
*value* of `0` as a missing parent: adding `-1` to the valid one-element
heap `[0]` leaves `[0, -1]`, which violates the invariant.  (The multiset
is still extended by the new element; only the invariant part fails.) -/
theorem add_parent_zero_bug :
    add [0] (-1) = [0, -1] ∧ ¬ isMinHeap [0, -1] :=
  ⟨by decide, by decide⟩

/-- C3: on a state satisfying the min-heap invariant, `poll` returns `none`
and leaves the state unchanged when the heap is empty; otherwise it returns
the root — which is the minimum of the stored elements — and leaves a state
that again satisfies the invariant and whose multiset of elements is the
prior multiset minus one occurrence of that minimum. -/
theorem poll_spec (l : List Int) (h : isMinHeap l) :
    (l = [] → poll l = (none, l)) ∧
    (l ≠ [] →
      (poll l).1 = some (get0 l 0) ∧
      get0 l 0 ∈ l ∧
      (∀ x ∈ l, get0 l 0 ≤ x) ∧
      isMinHeap (poll l).2 ∧
      ((poll l).2 : Multiset Int) = ((l : Multiset Int)).erase (get0 l 0)) := by
  constructor
  · intro he
    subst he
    rfl
  · intro hne
    have hpos : 0 < l.length := List.length_pos_of_ne_nil hne
    refine ⟨by rw [poll_of_ne_nil hne], ?_, root_min_mem h, poll_heapFrom hne h, ?_⟩
    · rw [get0, List.getD_eq_getElem l 0 hpos]
      exact List.getElem_mem hpos
    · obtain ⟨x, t, rfl⟩ := List.exists_cons_of_ne_nil hne
      have hperm : ((poll (x :: t)).2).Perm t := by
        have := poll_result_perm_tail hne
        rwa [List.tail_cons] at this
      rw [show get0 (x :: t) 0 = x from rfl, ← Multiset.cons_coe,
        Multiset.erase_cons_head, Multiset.coe_eq_coe]
      exact hperm

/-- C3 (witness): the theorem applied to the concrete valid heap `[1, 3, 2]`. -/
theorem poll_spec_witness :
    isMinHeap [1, 3, 2] ∧
    ((([1, 3, 2] : List Int) = [] → poll [1, 3, 2] = (none, [1, 3, 2])) ∧
    (([1, 3, 2] : List Int) ≠ [] →
      (poll [1, 3, 2]).1 = some (get0 [1, 3, 2] 0) ∧
      get0 [1, 3, 2] 0 ∈ [1, 3, 2] ∧
      (∀ x ∈ ([1, 3, 2] : List Int), get0 [1, 3, 2] 0 ≤ x) ∧
      isMinHeap (poll [1, 3, 2]).2 ∧
      ((poll [1, 3, 2]).2 : Multiset Int)
        = (([1, 3, 2] : List Int) : Multiset Int).erase (get0 [1, 3, 2] 0))) :=
  ⟨by decide, poll_spec [1, 3, 2] (by decide)⟩

/-- C4: the claim says `peek` returns the root when the heap is non-empty
and the empty signal when it is empty, but the source's emptiness check is
inverted: on the non-empty heap `[5]` it returns `None`, and on the empty
heap it raises `IndexError` instead of returning the empty signal.
(`is_empty` itself behaves as claimed, and neither operation mutates.) -/
theorem peek_inverted :
    peek [5] = Except.ok none ∧
    peek ([] : List Int) = Except.error "IndexError" ∧
    is_empty ([] : List Int) = true ∧
    is_empty [5] = false :=
  ⟨rfl, rfl, rfl, rfl⟩

/-- C5: `heapsort_aux [10, 15, 8, 20, 17]` returns the ascending sequence
`[8, 10, 15, 17, 20]` (each element a polled value), while the heap's
backing list ends empty; the output differs from the input sequence's
contents, so it cannot be the same object as the input. -/
theorem heapsort_aux_roundtrip :
    heapsort_aux [10, 15, 8, 20, 17]
      = ([some 8, some 10, some 15, some 17, some 20], []) ∧
    (heapsort_aux [10, 15, 8, 20, 17]).1 ≠ [10, 15, 8, 20, 17].map some :=
  ⟨by decide, by decide⟩

/-- C9: for every non-empty integer sequence `S`, `heapsort_in_place S` is
a permutation of `S` whose element at index 0 is the minimum of `S`: the
bottom-up pass places the global minimum at the root and
`heapify_children 0` never writes to index 0, so the root survives and no
element is lost or duplicated. -/
theorem heapsort_in_place_min_at_root (S : List Int) (h : S ≠ []) :
    (heapsort_in_place S).Perm S ∧
    get0 (heapsort_in_place S) 0 = get0 (buildLoop S (S.length / 2)) 0 ∧
    get0 (heapsort_in_place S) 0 ∈ S ∧
    ∀ x ∈ S, get0 (heapsort_in_place S) 0 ≤ x := by
  have hperm : (heapsort_in_place S).Perm S :=
    (heapify_children_perm _ 0).trans (buildLoop_perm S _)
  have hroot : get0 (heapsort_in_place S) 0 = get0 (buildLoop S (S.length / 2)) 0 :=
    get0_heapify_children_root _
  have hheap := buildLoop_isMinHeap S
  have hblperm := buildLoop_perm S (S.length / 2)
  refine ⟨hperm, hroot, ?_, ?_⟩
  · have hlen : (buildLoop S (S.length / 2)).length = S.length := buildLoop_length S _
    have hpos : 0 < S.length := List.length_pos_of_ne_nil h
    rw [hroot, get0, List.getD_eq_getElem _ 0 (by omega)]
    exact hblperm.mem_iff.mp (List.getElem_mem (by omega))
  · intro x hx
    rw [hroot]
    exact root_min_mem hheap x (hblperm.mem_iff.mpr hx)

/-- C9 (witness): the theorem applied to the concrete sequence `[3, 1, 2]`. -/
theorem heapsort_in_place_min_at_root_witness :
    ([3, 1, 2] : List Int) ≠ [] ∧
    ((heapsort_in_place [3, 1, 2]).Perm [3, 1, 2] ∧
    get0 (heapsort_in_place [3, 1, 2]) 0
      = get0 (buildLoop [3, 1, 2] ([3, 1, 2].length / 2)) 0 ∧
    get0 (heapsort_in_place [3, 1, 2]) 0 ∈ ([3, 1, 2] : List Int) ∧
    ∀ x ∈ ([3, 1, 2] : List Int), get0 (heapsort_in_place [3, 1, 2]) 0 ≤ x) :=
  ⟨by decide, heapsort_in_place_min_at_root [3, 1, 2] (by decide)⟩

end MinHeap

namespace SinglyLinkedList

/-- C6: the claim says `get`/`set`/`delete` fail with the out-of-range
signal exactly when `index < 0` or `index ≥ length`, but the source's guard
`index < 0 and index > len - 1` is unsatisfiable: on the one-element list,
`get(-1)` returns the first data node, `set(-2, 9)` overwrites the
sentinel, `get(5)` and `delete(5)` die with `AttributeError` — the
out-of-range signal is never produced. -/
theorem indexing_no_out_of_range_check :
    (⟨PyVal.str "HEAD", [PyVal.int 1]⟩ : SinglyLinkedList).getAt (-1)
      = Except.ok (some (PyVal.int 1)) ∧
    (⟨PyVal.str "HEAD", [PyVal.int 1]⟩ : SinglyLinkedList).getAt 5
      = Except.error "AttributeError" ∧
    (⟨PyVal.str "HEAD", [PyVal.int 1]⟩ : SinglyLinkedList).setAt (-2) (PyVal.int 9)
      = Except.ok ⟨PyVal.int 9, [PyVal.int 1]⟩ ∧
    (⟨PyVal.str "HEAD", [PyVal.int 1]⟩ : SinglyLinkedList).delAt 5
      = Except.error "AttributeError" :=
  ⟨rfl, rfl, rfl, rfl⟩

/-- C7 (counterexample): removing an absent payload from a non-empty list
does not complete silently — the scan dereferences the absence marker after
the last node and dies with `AttributeError`. -/
theorem remove_absent_crash :
    (⟨PyVal.str "HEAD", [PyVal.int 1]⟩ : SinglyLinkedList).remove (PyVal.int 2)
      = Except.error "AttributeError" := rfl

/-- C7 (amended): `remove data` returns the empty signal without effect on
an empty list; when `data` occurs it unlinks exactly the first data node
downstream from the sentinel whose payload equals `data`; but when `data`
is absent from a non-empty list it crashes with `AttributeError` instead of
completing silently. -/
theorem remove_spec (s : SinglyLinkedList) (data : PyVal) :
    (s.items = [] → s.remove data = Except.ok none) ∧
    (data ∈ s.items → ∃ pre post, s.items = pre ++ data :: post ∧ data ∉ pre ∧
      s.remove data = Except.ok (some ⟨s.headData, pre ++ post⟩)) ∧
    (s.items ≠ [] → data ∉ s.items →
      s.remove data = Except.error "AttributeError") := by
  refine ⟨fun he => ?_, fun hmem => ?_, fun hne habs => ?_⟩
  · rw [remove, if_pos he]
  · obtain ⟨pre, post, heq, hpre, hgo⟩ := removeGo_mem data s.items hmem
    refine ⟨pre, post, heq, hpre, ?_⟩
    rw [remove, if_neg (List.ne_nil_of_mem hmem), hgo]
    rfl
  · rw [remove, if_neg hne, removeGo_not_mem data s.items habs]
    rfl

/-- C7 (witness): the theorem applied to the list `[1, 2]` and payload `2`
(present case: the node holding `2` is unlinked). -/
theorem remove_spec_witness :
    PyVal.int 2 ∈ (⟨PyVal.str "HEAD", [PyVal.int 1, PyVal.int 2]⟩ :
      SinglyLinkedList).items ∧
    ∃ pre post,
      (⟨PyVal.str "HEAD", [PyVal.int 1, PyVal.int 2]⟩ :
        SinglyLinkedList).items = pre ++ PyVal.int 2 :: post ∧
      PyVal.int 2 ∉ pre ∧
      (⟨PyVal.str "HEAD", [PyVal.int 1, PyVal.int 2]⟩ :
        SinglyLinkedList).remove (PyVal.int 2)
        = Except.ok (some ⟨PyVal.str "HEAD", pre ++ post⟩) :=
  ⟨by decide,
    (remove_spec ⟨PyVal.str "HEAD", [PyVal.int 1, PyVal.int 2]⟩
      (PyVal.int 2)).2.1 (by decide)⟩

/-- C8 (counterexample): on the empty list, `contains` still scans the
sentinel node, so `contains('HEAD')` is true while `find('HEAD')` returns
the empty signal — the claimed equivalence fails. -/
theorem contains_find_mismatch :
    (⟨PyVal.str "HEAD", []⟩ : SinglyLinkedList).contains (PyVal.str "HEAD") = true ∧
    (⟨PyVal.str "HEAD", []⟩ : SinglyLinkedList).find (PyVal.str "HEAD") = none :=
  ⟨by decide, rfl⟩

/-- C8 (amended): `contains x` is true iff `find x` returns a node, for
every list and payload except the single corner where the list has no data
nodes and `x` equals the sentinel payload (there `contains` is true but
`find` returns the empty signal). -/
theorem contains_iff_find (s : SinglyLinkedList) (x : PyVal)
    (h : s.items ≠ [] ∨ x ≠ s.headData) :
    s.contains x = true ↔ (s.find x).isSome = true := by
  rcases eq_or_ne s.items [] with hi | hi
  · rcases h with h | h
    · exact absurd hi h
    · simp [contains, find, chain, hi, Ne.symm h]
  · simp [contains, find, chain, hi, List.find?_isSome, List.any_eq_true]
    exact or_congr eq_comm Iff.rfl

/-- C8 (witness): the theorem applied to the list `[1]` and payload `1`. -/
theorem contains_iff_find_witness :
    ((⟨PyVal.str "HEAD", [PyVal.int 1]⟩ : SinglyLinkedList).items ≠ [] ∨
      PyVal.int 1 ≠ (⟨PyVal.str "HEAD", [PyVal.int 1]⟩ :
        SinglyLinkedList).headData) ∧
    ((⟨PyVal.str "HEAD", [PyVal.int 1]⟩ : SinglyLinkedList).contains
        (PyVal.int 1) = true ↔
      ((⟨PyVal.str "HEAD", [PyVal.int 1]⟩ : SinglyLinkedList).find
        (PyVal.int 1)).isSome = true) :=
  ⟨by decide,
    contains_iff_find ⟨PyVal.str "HEAD", [PyVal.int 1]⟩ (PyVal.int 1)
      (by decide)⟩

/-- C10: for every list and every negative index, `get(index)` raises no
out-of-range error and behaves exactly like `get(0)`, returning the first
data node (the head of `items`, or the absence marker on an empty list);
and `set(-1, data)` raises nothing and overwrites the sentinel node's
payload, leaving every data node untouched. -/
theorem negative_index_behavior (s : SinglyLinkedList) (index : Int)
    (data : PyVal) (h : index < 0) :
    s.getAt index = Except.ok s.items.head? ∧
    s.getAt index = s.getAt 0 ∧
    s.setAt (-1) data = Except.ok ⟨data, s.items⟩ := by
  have ht : index.toNat = 0 := Int.toNat_of_nonpos h.le
  have hg : s.getAt index = Except.ok s.items.head? := by
    rw [getAt, if_neg (by omega), ht]
    rfl
  refine ⟨hg, ?_, ?_⟩
  · rw [hg, getAt, if_neg (by omega)]
    rfl
  · rw [setAt, if_neg (by omega)]
    rfl

/-- C10 (witness): the theorem applied to the list `[7]`, index `-3` and
payload `9`. -/
theorem negative_index_behavior_witness :
    (-3 : Int) < 0 ∧
    ((⟨PyVal.str "HEAD", [PyVal.int 7]⟩ : SinglyLinkedList).getAt (-3)
      = Except.ok ([PyVal.int 7].head?) ∧
    (⟨PyVal.str "HEAD", [PyVal.int 7]⟩ : SinglyLinkedList).getAt (-3)
      = (⟨PyVal.str "HEAD", [PyVal.int 7]⟩ : SinglyLinkedList).getAt 0 ∧
    (⟨PyVal.str "HEAD", [PyVal.int 7]⟩ : SinglyLinkedList).setAt (-1)
        (PyVal.int 9)
      = Except.ok ⟨PyVal.int 9, [PyVal.int 7]⟩) :=
  ⟨by decide,
    negative_index_behavior ⟨PyVal.str "HEAD", [PyVal.int 7]⟩ (-3)
      (PyVal.int 9) (by decide)⟩

end SinglyLinkedList

end Articles
